import Mathlib

/-!
# Verification of the pocketty real-time audio engine

Shallow embedding of the audio core of the `pocketty` sampler/groovebox
(files `src/audio/effect.rs`, `src/audio/voice.rs`, `src/audio/engine.rs`)
together with proofs of the specification's claims about it.

Modelling conventions:
* Rust `f32` channel values, positions, gains and pitches are modelled as
  exact rationals (`ℚ`); `f32::round` (round half away from zero) is
  modelled by `rustRound`.
* `usize` / `u32` become `ℕ`; `saturating_sub` becomes truncated `ℕ`
  subtraction.
* The bounded channels are modelled by passing the drained batch of input
  chunks as an argument and returning the list of messages offered to the
  completion channel.
-/

/-- One stereo frame: a (left, right) sample pair (`frame.rs`). -/
structure StereoFrame where
  left : ℚ
  right : ℚ
deriving DecidableEq, Repr

instance : Inhabited StereoFrame := ⟨⟨0, 0⟩⟩

/-- Rust's `x.clamp(lo, hi)`: `lo` if `x < lo`, `hi` if `x > hi`, else `x`. -/
def rustClamp (x lo hi : ℚ) : ℚ :=
  if x < lo then lo else if x > hi then hi else x

/-- Rust's `f32::round`: round half away from zero. -/
def rustRound (x : ℚ) : ℤ :=
  if x < 0 then -⌊-x + 1/2⌋ else ⌊x + 1/2⌋

/-- Linear interpolation (`voice.rs`, `fn lerp`). -/
def lerp (a b t : ℚ) : ℚ := a * (1 - t) + b * t

/-! ## Effects (`effect.rs`) -/

/-- Declarative effect descriptor (`EffectSpec` in `effect.rs`). -/
inductive EffectSpec where
  | Bitcrusher (levels : ℕ)
  | Distortion (drive : ℚ)
deriving DecidableEq, Repr

/-- The bitcrusher processor state: the clamped level count (`Bitcrusher`). -/
structure Bitcrusher where
  levels : ℚ
deriving DecidableEq, Repr

/-- `Bitcrusher::new`: clamps `levels` into `[2, 65536]` via
`levels.max(2).min(65536)` and stores it as a float. -/
def Bitcrusher.new (levels : ℕ) : Bitcrusher :=
  ⟨((min (max levels 2) 65536 : ℕ) : ℚ)⟩

/-- One channel of `Bitcrusher::process`:
`(x.clamp(-1,1) * scale).round() * inv` with `scale = (levels-1)*0.5`,
`inv = 1/scale`. -/
def Bitcrusher.process_channel (b : Bitcrusher) (x : ℚ) : ℚ :=
  let scale := (b.levels - 1) * (1/2)
  let inv := 1 / scale
  ((rustRound (rustClamp x (-1) 1 * scale) : ℚ)) * inv

/-- `Bitcrusher::process` over a block: per-sample, both channels. -/
def Bitcrusher.process (b : Bitcrusher) (buf : List StereoFrame) :
    List StereoFrame :=
  buf.map fun f => ⟨b.process_channel f.left, b.process_channel f.right⟩

/-- The distortion processor state (`Distortion`); its `tanh` output is not
needed by any claim, so only the constructor's clamping is modelled. -/
structure Distortion where
  drive : ℚ
deriving DecidableEq, Repr

/-- `Distortion::new`: stores `drive.clamp(0.0, 1.0)`. -/
def Distortion.new (drive : ℚ) : Distortion :=
  ⟨rustClamp drive 0 1⟩

/-- The instantiated processor (`Box<dyn Effect>` as a closed variant set). -/
inductive Effect where
  | bitcrusher (b : Bitcrusher)
  | distortion (d : Distortion)
deriving DecidableEq, Repr

/-- `EffectSpec::to_effect`. -/
def EffectSpec.to_effect : EffectSpec → Effect
  | .Bitcrusher levels => .bitcrusher (Bitcrusher.new levels)
  | .Distortion drive => .distortion (Distortion.new drive)

/-- The spec's own bitcrusher formula (§4.4), written from its words:
`scale = (levels−1)/2; output = round(clamp(x,-1,1)×scale)/scale`. -/
def specBitcrushChannel (levels : ℕ) (x : ℚ) : ℚ :=
  let scale := ((levels : ℚ) - 1) / 2
  (rustRound (rustClamp x (-1) 1 * scale) : ℚ) / scale

lemma Bitcrusher.new_levels (levels : ℕ) :
    (Bitcrusher.new levels).levels = ((min (max levels 2) 65536 : ℕ) : ℚ) := rfl

/-- Half-away-from-zero rounding is within 1/2 of its argument. -/
lemma abs_rustRound_sub_le (x : ℚ) : |(rustRound x : ℚ) - x| ≤ 1/2 := by
  unfold rustRound
  have h1 := Int.lt_floor_add_one (-x + 1/2)
  have h2 := Int.floor_le (-x + 1/2)
  have h3 := Int.lt_floor_add_one (x + 1/2)
  have h4 := Int.floor_le (x + 1/2)
  split <;> push_cast <;> rw [abs_le] <;> constructor <;> linarith

lemma rustClamp_eq_self {x lo hi : ℚ} (h1 : lo ≤ x) (h2 : x ≤ hi) :
    rustClamp x lo hi = x := by
  unfold rustClamp
  rw [if_neg (by linarith), if_neg (by linarith)]

lemma rustClamp_mem (x lo hi : ℚ) (h : lo ≤ hi) :
    lo ≤ rustClamp x lo hi ∧ rustClamp x lo hi ≤ hi := by
  unfold rustClamp
  split
  · exact ⟨le_refl _, h⟩
  · split
    · exact ⟨h, le_refl _⟩
    · constructor <;> linarith [not_lt.mp (by assumption : ¬ x < lo)]

/-- C3 (counterexample): the claim says `Bitcrusher(levels=2)` maps `0.9` to
exactly `1.0`; the code maps it to `0`: `scale = 0.5`, `round(0.45) = 0`. -/
theorem c3_bitcrusher_counterexample :
    (Bitcrusher.new 2).process_channel (9/10) = 0 ∧
      ¬ (Bitcrusher.new 2).process_channel (9/10) = 1 := by
  constructor <;>
    norm_num [Bitcrusher.process_channel, Bitcrusher.new, rustClamp, rustRound]

/-- C3 (amended): with 2 levels the code maps `0.9` to exactly `0`
(the quantization grid is `{-2, 0, 2}`, not `{-1, 1}`), and with 65536
levels the bitcrusher approximates the identity within `1/32768` on
inputs of magnitude at most 1. -/
theorem c3_bitcrusher_amended :
    (Bitcrusher.new 2).process_channel (9/10) = 0 ∧
      ∀ x : ℚ, |x| ≤ 1 →
        |(Bitcrusher.new 65536).process_channel x - x| ≤ 1/32768 := by
  constructor
  · norm_num [Bitcrusher.process_channel, Bitcrusher.new, rustClamp, rustRound]
  · intro x hx
    have hlev : (Bitcrusher.new 65536).levels = 65536 := by
      norm_num [Bitcrusher.new]
    unfold Bitcrusher.process_channel
    rw [hlev]
    have hclamp : rustClamp x (-1) 1 = x :=
      rustClamp_eq_self (by rw [abs_le] at hx; linarith [hx.1])
        (by rw [abs_le] at hx; linarith [hx.2])
    rw [hclamp]
    have hscale : ((65536 : ℚ) - 1) * (1/2) = 65535/2 := by norm_num
    rw [hscale]
    have hround := abs_rustRound_sub_le (x * (65535/2))
    have hexp : (rustRound (x * (65535/2)) : ℚ) * (1 / (65535/2)) - x
        = ((rustRound (x * (65535/2)) : ℚ) - x * (65535/2)) * (2/65535) := by
      ring
    rw [hexp, abs_mul]
    have h2 : |(2 : ℚ)/65535| = 2/65535 := by norm_num
    rw [h2]
    calc |(rustRound (x * (65535/2)) : ℚ) - x * (65535/2)| * (2/65535)
        ≤ (1/2) * (2/65535) := by
          apply mul_le_mul_of_nonneg_right hround (by norm_num)
      _ ≤ 1/32768 := by norm_num

/-- C3 witness: instantiates the amended theorem's hypothesis at `x = 1/4`. -/
theorem c3_bitcrusher_amended_witness :
    |(Bitcrusher.new 65536).process_channel (1/4) - 1/4| ≤ 1/32768 :=
  c3_bitcrusher_amended.2 (1/4) (by rw [abs_le]; norm_num)

/-- C4: for levels already in `[2, 65536]`, the code's per-channel output is
exactly the spec formula `round(clamp(x,-1,1)×scale)/scale` with
`scale = (levels−1)/2`, and block processing is the per-sample map of that
formula over both channels (stateless, deterministic). -/
theorem c4_bitcrusher_formula (levels : ℕ) (h2 : 2 ≤ levels)
    (h65536 : levels ≤ 65536) :
    (∀ x : ℚ, (Bitcrusher.new levels).process_channel x
        = specBitcrushChannel levels x) ∧
      ∀ buf : List StereoFrame,
        (Bitcrusher.new levels).process buf
          = buf.map fun f =>
              ⟨specBitcrushChannel levels f.left,
               specBitcrushChannel levels f.right⟩ := by
  have hclamped : (Bitcrusher.new levels).levels = (levels : ℚ) := by
    rw [Bitcrusher.new_levels]
    congr 1
    omega
  have hchan : ∀ x : ℚ, (Bitcrusher.new levels).process_channel x
      = specBitcrushChannel levels x := by
    intro x
    unfold Bitcrusher.process_channel specBitcrushChannel
    rw [hclamped]
    have hs : ((levels : ℚ) - 1) * (1/2) = ((levels : ℚ) - 1) / 2 := by ring
    rw [hs]
    ring
  refine ⟨hchan, fun buf => ?_⟩
  unfold Bitcrusher.process
  simp only [hchan]

/-- C4 witness: levels = 3, one concrete frame. -/
theorem c4_bitcrusher_formula_witness :
    (Bitcrusher.new 3).process_channel (3/5) = specBitcrushChannel 3 (3/5) ∧
      (Bitcrusher.new 3).process [⟨3/5, -1⟩]
        = [⟨specBitcrushChannel 3 (3/5), specBitcrushChannel 3 (-1)⟩] := by
  have h := c4_bitcrusher_formula 3 (by norm_num) (by norm_num)
  exact ⟨h.1 (3/5), h.2 [⟨3/5, -1⟩]⟩

/-- C10: `Bitcrusher::new` clamps any `u32` level count into `[2, 65536]`,
so the quantization scale is at least `1/2`; in particular it is nonzero
(no division by zero) and every output channel value is bounded by 2 for
any input (finite output). -/
theorem c10_bitcrusher_safety (levels : ℕ) (hu32 : levels < 2^32) :
    (2 : ℚ) ≤ (Bitcrusher.new levels).levels ∧
      (Bitcrusher.new levels).levels ≤ 65536 ∧
      (1/2 : ℚ) ≤ ((Bitcrusher.new levels).levels - 1) * (1/2) ∧
      ((Bitcrusher.new levels).levels - 1) * (1/2) ≠ 0 ∧
      ∀ x : ℚ, |(Bitcrusher.new levels).process_channel x| ≤ 2 := by
  rw [Bitcrusher.new_levels]
  have hlo : 2 ≤ min (max levels 2) 65536 := by omega
  have hhi : min (max levels 2) 65536 ≤ 65536 := by omega
  have hloQ : (2 : ℚ) ≤ ((min (max levels 2) 65536 : ℕ) : ℚ) := by
    exact_mod_cast hlo
  have hhiQ : ((min (max levels 2) 65536 : ℕ) : ℚ) ≤ 65536 := by
    exact_mod_cast hhi
  set L : ℚ := ((min (max levels 2) 65536 : ℕ) : ℚ) with hL
  have hscale : (1/2 : ℚ) ≤ (L - 1) * (1/2) := by linarith
  refine ⟨hloQ, hhiQ, hscale, by linarith, fun x => ?_⟩
  unfold Bitcrusher.process_channel
  rw [Bitcrusher.new_levels, ← hL]
  set scale : ℚ := (L - 1) * (1/2) with hsc
  have hspos : 0 < scale := by linarith
  have hcl := rustClamp_mem x (-1) 1 (by norm_num)
  have hclabs : |rustClamp x (-1) 1| ≤ 1 := by
    rw [abs_le]; exact hcl
  have hmul : |rustClamp x (-1) 1 * scale| ≤ scale := by
    rw [abs_mul, abs_of_pos hspos]
    nlinarith [hclabs, hspos]
  have hround := abs_rustRound_sub_le (rustClamp x (-1) 1 * scale)
  have hrabs : |(rustRound (rustClamp x (-1) 1 * scale) : ℚ)| ≤ scale + 1/2 := by
    have h3 := abs_sub_abs_le_abs_sub
      ((rustRound (rustClamp x (-1) 1 * scale) : ℚ))
      (rustClamp x (-1) 1 * scale)
    linarith
  rw [abs_mul]
  have hinv : |1 / scale| = 1 / scale := by
    rw [abs_of_pos (by positivity)]
  rw [hinv]
  have : (scale + 1/2) * (1/scale) ≤ 2 := by
    rw [add_mul]
    have h1 : scale * (1/scale) = 1 := by
      field_simp
    rw [h1]
    have h2 : (1/2 : ℚ) * (1/scale) ≤ 1 := by
      rw [div_mul_div_comm, one_mul]
      rw [div_le_one (by linarith)]
      linarith
    linarith
  calc |(rustRound (rustClamp x (-1) 1 * scale) : ℚ)| * (1/scale)
      ≤ (scale + 1/2) * (1/scale) := by
        apply mul_le_mul_of_nonneg_right hrabs (by positivity)
    _ ≤ 2 := this

/-- C10 witness: levels = 0 (below the legal range). -/
theorem c10_bitcrusher_safety_witness :
    (2 : ℚ) ≤ (Bitcrusher.new 0).levels ∧
      (Bitcrusher.new 0).levels ≤ 65536 ∧
      (1/2 : ℚ) ≤ ((Bitcrusher.new 0).levels - 1) * (1/2) ∧
      ((Bitcrusher.new 0).levels - 1) * (1/2) ≠ 0 ∧
      ∀ x : ℚ, |(Bitcrusher.new 0).process_channel x| ≤ 2 :=
  c10_bitcrusher_safety 0 (by norm_num)

/-! ## The pre-roll ring (`engine.rs`, `PreRollRing`) -/

/-- Fixed-capacity circular buffer of the most recent frames. `data` plays
the role of the backing `Vec` allocated once at capacity. -/
structure PreRollRing where
  data : List StereoFrame
  write_pos : ℕ
  len : ℕ
deriving DecidableEq, Repr

/-- `PreRollRing::new(capacity)`: a zero-filled backing vector. -/
def PreRollRing.new (capacity : ℕ) : PreRollRing :=
  ⟨List.replicate capacity default, 0, 0⟩

/-- `PreRollRing::push`: write at `write_pos`, advance modulo capacity,
grow `len` until full. -/
def PreRollRing.push (r : PreRollRing) (f : StereoFrame) : PreRollRing :=
  let cap := r.data.length
  if cap = 0 then r
  else
    { data := r.data.set r.write_pos f,
      write_pos := (r.write_pos + 1) % cap,
      len := if r.len < cap then r.len + 1 else r.len }

/-- The `start` index used by `drain_ordered`. -/
def PreRollRing.start (r : PreRollRing) : ℕ :=
  if r.len < r.data.length then 0 else r.write_pos

/-- `PreRollRing::drain_ordered`: read `len` frames in chronological order
starting at `start`, wrapping modulo capacity. -/
def PreRollRing.drain_ordered (r : PreRollRing) : List StereoFrame :=
  let cap := r.data.length
  if r.len = 0 ∨ cap = 0 then []
  else (List.range r.len).map fun i => r.data.getD ((r.start + i) % cap) default

/-- Fold a batch of frames into the ring, oldest first. -/
def PreRollRing.pushAll (r : PreRollRing) (frames : List StereoFrame) :
    PreRollRing :=
  frames.foldl PreRollRing.push r

/-- Coupling invariant between a ring and the full history `hist` of frames
pushed into it since construction at capacity `C`. -/
def RingInv (C : ℕ) (hist : List StereoFrame) (r : PreRollRing) : Prop :=
  r.data.length = C ∧
  r.write_pos = hist.length % C ∧
  r.len = min hist.length C ∧
  ∀ i < r.len,
    r.data.getD ((r.start + i) % C) default
      = hist.getD (hist.length - r.len + i) default

lemma ringInv_new (C : ℕ) : RingInv C [] (PreRollRing.new C) := by
  refine ⟨by simp [PreRollRing.new], by simp [PreRollRing.new], by
    simp [PreRollRing.new], ?_⟩
  intro i hi
  simp [PreRollRing.new] at hi

lemma mod_add_ne {wp m C : ℕ} (hwp : wp < C) (hm0 : 0 < m) (hmC : m < C) :
    (wp + m) % C ≠ wp := by
  rcases Nat.lt_or_ge (wp + m) C with h | h
  · rw [Nat.mod_eq_of_lt h]
    omega
  · have hsub : (wp + m) % C = (wp + m - C) % C := by
      rw [← Nat.mod_eq_sub_mod h]
    rw [hsub, Nat.mod_eq_of_lt (by omega)]
    omega

lemma mod_succ_mod (n C : ℕ) : (n % C + 1) % C = (n + 1) % C := by
  conv_rhs => rw [Nat.add_mod]
  rw [Nat.add_mod (n % C) 1 C, Nat.mod_mod]

lemma ringInv_push {C : ℕ} (hC : 0 < C) {hist : List StereoFrame}
    {r : PreRollRing} (h : RingInv C hist r) (f : StereoFrame) :
    RingInv C (hist ++ [f]) (r.push f) := by
  obtain ⟨hdata, hwp, hlen, hidx⟩ := h
  have hcapne : ¬ r.data.length = 0 := by omega
  have hPd : (r.push f).data = r.data.set r.write_pos f := by
    simp [PreRollRing.push, hcapne]
  have hPw : (r.push f).write_pos = (r.write_pos + 1) % C := by
    simp [PreRollRing.push, hdata, hC.ne']
  have hPl : (r.push f).len = if r.len < C then r.len + 1 else r.len := by
    simp [PreRollRing.push, hdata, hC.ne']
  have hPdlen : (r.push f).data.length = C := by
    rw [hPd, List.length_set, hdata]
  have hlenhist : (hist ++ [f]).length = hist.length + 1 := by simp
  rcases Nat.lt_or_ge hist.length C with hcase | hcase
  · -- ring not yet full
    have hwpn : r.write_pos = hist.length := by
      rw [hwp, Nat.mod_eq_of_lt hcase]
    have hlenn : r.len = hist.length := by omega
    have hPlen : (r.push f).len = hist.length + 1 := by
      rw [hPl, if_pos (by omega), hlenn]
    have hPstart : (r.push f).start = 0 := by
      unfold PreRollRing.start
      rw [hPdlen, hPlen]
      rcases Nat.lt_or_ge (hist.length + 1) C with h1 | h1
      · rw [if_pos h1]
      · rw [if_neg (by omega), hPw, hwpn,
          show hist.length + 1 = C by omega, Nat.mod_self]
    refine ⟨hPdlen, ?_, ?_, ?_⟩
    · rw [hPw, hwpn, hlenhist]
    · rw [hPlen, hlenhist]; omega
    · intro i hi
      rw [hPlen] at hi
      rw [hPstart, hlenhist, hPlen, hPd,
        Nat.zero_add, Nat.mod_eq_of_lt (by omega),
        show hist.length + 1 - (hist.length + 1) + i = i by omega]
      rcases Nat.lt_or_ge i hist.length with hin | hin
      · have hne2 : r.write_pos ≠ i := by rw [hwpn]; omega
        have h1 : (r.data.set r.write_pos f).getD i default
            = r.data.getD i default := by
          rw [List.getD_eq_getElem _ _ (by rw [List.length_set, hdata]; omega),
              List.getD_eq_getElem _ _ (by rw [hdata]; omega)]
          exact List.getElem_set_ne hne2 _
        rw [h1]
        have h2 := hidx i (by omega)
        have hstart_old : r.start = 0 := by
          unfold PreRollRing.start
          rw [if_pos (by omega)]
        rw [hstart_old, Nat.zero_add, Nat.mod_eq_of_lt (by omega)] at h2
        rw [h2, hlenn, show hist.length - hist.length + i = i by omega]
        exact (List.getD_append hist [f] default i (by omega)).symm
      · have hieq : i = hist.length := by omega
        subst hieq
        rw [hwpn,
          List.getD_eq_getElem _ _ (by rw [List.length_set, hdata]; omega),
          List.getElem_set_self (by rw [List.length_set, hdata]; omega),
          List.getD_append_right hist [f] default _ (le_refl _)]
        simp
  · -- ring already full
    have hlenC : r.len = C := by omega
    have hwpC : r.write_pos < C := by
      rw [hwp]; exact Nat.mod_lt _ hC
    have hPlen : (r.push f).len = C := by
      rw [hPl, if_neg (by omega), hlenC]
    have hPstart : (r.push f).start = (r.write_pos + 1) % C := by
      unfold PreRollRing.start
      rw [hPdlen, hPlen, if_neg (by omega)]
      exact hPw
    refine ⟨hPdlen, ?_, ?_, ?_⟩
    · rw [hPw, hwp, hlenhist, mod_succ_mod]
    · rw [hPlen, hlenhist]; omega
    · intro i hi
      rw [hPlen] at hi
      rw [hPstart, hlenhist, hPlen, hPd, Nat.mod_add_mod]
      have hstart_old : r.start = r.write_pos := by
        unfold PreRollRing.start
        rw [if_neg (by omega)]
      rcases Nat.lt_or_ge i (C - 1) with hiC | hiC
      · have hne : (r.write_pos + (1 + i)) % C ≠ r.write_pos :=
          mod_add_ne hwpC (by omega) (by omega)
        rw [show r.write_pos + 1 + i = r.write_pos + (1 + i) by omega]
        have hltC : (r.write_pos + (1 + i)) % C < C := Nat.mod_lt _ hC
        have h1 : (r.data.set r.write_pos f).getD
              ((r.write_pos + (1 + i)) % C) default
            = r.data.getD ((r.write_pos + (1 + i)) % C) default := by
          rw [List.getD_eq_getElem _ _ (by rw [List.length_set, hdata]; omega),
              List.getD_eq_getElem _ _ (by rw [hdata]; omega)]
          exact List.getElem_set_ne (Ne.symm hne) _
        rw [h1]
        have h2 := hidx (i + 1) (by rw [hlenC]; omega)
        rw [hstart_old] at h2
        rw [show r.write_pos + (1 + i) = r.write_pos + (i + 1) by omega, h2,
          hlenC,
          List.getD_append hist [f] default _ (by omega),
          show hist.length + 1 - C + i = hist.length - C + (i + 1) by omega]
      · have hieq : i = C - 1 := by omega
        subst hieq
        rw [show r.write_pos + 1 + (C - 1) = r.write_pos + C by omega,
          Nat.add_mod_right, Nat.mod_eq_of_lt hwpC,
          List.getD_eq_getElem _ _ (by rw [List.length_set, hdata]; omega),
          List.getElem_set_self (by rw [List.length_set, hdata]; omega),
          show hist.length + 1 - C + (C - 1) = hist.length by omega,
          List.getD_append_right hist [f] default _ (le_refl _)]
        simp

lemma ringInv_pushAll {C : ℕ} (hC : 0 < C) :
    ∀ (frames hist : List StereoFrame) (r : PreRollRing),
      RingInv C hist r → RingInv C (hist ++ frames) (r.pushAll frames)
  | [], hist, r, h => by simpa [PreRollRing.pushAll] using h
  | f :: fs, hist, r, h => by
      have h2 := ringInv_pushAll hC fs (hist ++ [f]) (r.push f)
        (ringInv_push hC h f)
      simpa [PreRollRing.pushAll, List.append_assoc] using h2

lemma drain_of_ringInv {C : ℕ} (hC : 0 < C) {hist : List StereoFrame}
    {r : PreRollRing} (h : RingInv C hist r) :
    r.drain_ordered = hist.drop (hist.length - min hist.length C) := by
  obtain ⟨hdata, hwp, hlen, hidx⟩ := h
  unfold PreRollRing.drain_ordered
  by_cases h0 : r.len = 0
  · rw [if_pos (Or.inl h0)]
    have hh : hist.length = 0 := by omega
    have : hist = [] := List.eq_nil_of_length_eq_zero hh
    subst this
    simp
  · rw [if_neg (by rw [hdata]; push_neg; exact ⟨h0, by omega⟩)]
    apply List.ext_getElem
    · simp only [List.length_map, List.length_range, List.length_drop]
      omega
    · intro i h1 h2
      simp only [List.length_map, List.length_range] at h1
      rw [List.getElem_map, List.getElem_range]
      rw [List.getElem_drop]
      have h3 := hidx i h1
      rw [hdata, h3]
      rw [List.getD_eq_getElem _ _ (by omega)]
      congr 1
      omega

/-- C6: pushing `C + k` frames (`k > 0`) into a fresh `PreRollRing` of
capacity `C > 0` and draining yields exactly the last `C` frames pushed, in
push order: the ring overwrites the oldest retained entry once full. -/
theorem c6_preroll_drain (C k : ℕ) (frames : List StereoFrame) (hC : 0 < C)
    (hk : 0 < k) (hlen : frames.length = C + k) :
    ((PreRollRing.new C).pushAll frames).drain_ordered = frames.drop k ∧
      ((PreRollRing.new C).pushAll frames).drain_ordered.length = C := by
  have hinv := ringInv_pushAll hC frames [] (PreRollRing.new C)
    (ringInv_new C)
  rw [List.nil_append] at hinv
  have hd := drain_of_ringInv hC hinv
  rw [hd, hlen]
  constructor
  · congr 1
    omega
  · simp only [List.length_drop]
    omega

/-- C6 witness: capacity 2, three pushes retain the last two frames. -/
theorem c6_preroll_drain_witness :
    ((PreRollRing.new 2).pushAll
        [⟨1, 0⟩, ⟨2, 0⟩, ⟨3, 0⟩]).drain_ordered
      = [(⟨1, 0⟩ : StereoFrame), ⟨2, 0⟩, ⟨3, 0⟩].drop 1 ∧
      ((PreRollRing.new 2).pushAll
        [⟨1, 0⟩, ⟨2, 0⟩, ⟨3, 0⟩]).drain_ordered.length = 2 :=
  c6_preroll_drain 2 1 [⟨1, 0⟩, ⟨2, 0⟩, ⟨3, 0⟩]
    (by norm_num) (by norm_num) (by simp)

/-! ## The recording state machine (`engine.rs`) -/

/-- `RECORD_PEAK_THRESHOLD = 0.02`. -/
def RECORD_PEAK_THRESHOLD : ℚ := 2/100

/-- `PRE_ROLL_FRAMES = 6615`. -/
def PRE_ROLL_FRAMES : ℕ := 6615

/-- Peak level of a frame: `frame.left.abs().max(frame.right.abs())`. -/
def peakLevel (f : StereoFrame) : ℚ := max |f.left| |f.right|

/-- Tri-state recording machine (`RecordingState`). Sample ids are the
opaque `u64` counters, modelled as `ℕ`. -/
inductive RecordingState where
  | Idle
  | Armed (sample_id : ℕ) (pre_roll : PreRollRing)
  | Capturing (sample_id : ℕ) (buffer : List StereoFrame)
deriving DecidableEq, Repr

/-- The Armed-state scan of `Engine::drain_input`, over the concatenation
of the drained chunks: frames before the first threshold crossing are
pushed into the ring; the scan stops at the first frame whose peak level
strictly exceeds the threshold, reporting its global index (the source's
`'outer` loop with `total_offset + i`). -/
def armScan (ring : PreRollRing) (idx : ℕ) :
    List StereoFrame → PreRollRing × Option ℕ
  | [] => (ring, none)
  | f :: rest =>
      if peakLevel f > RECORD_PEAK_THRESHOLD then (ring, some idx)
      else armScan (ring.push f) (idx + 1) rest

/-- The recording part of `Engine::drain_input`, applied to the batch of
chunks drained from the input queue in this render callback. -/
def drainInput (st : RecordingState) (chunks : List (List StereoFrame)) :
    RecordingState :=
  if chunks.isEmpty then st
  else
    match st with
    | .Idle => .Idle
    | .Armed sample_id pre_roll =>
        match armScan pre_roll 0 chunks.flatten with
        | (ring, none) => .Armed sample_id ring
        | (ring, some off) =>
            .Capturing sample_id (ring.drain_ordered ++ chunks.flatten.drop off)
    | .Capturing sample_id buffer =>
        .Capturing sample_id (buffer ++ chunks.flatten)

/-- Index of the first frame whose peak strictly exceeds the threshold. -/
def firstCross (l : List StereoFrame) : ℕ :=
  l.findIdx fun f => decide (peakLevel f > RECORD_PEAK_THRESHOLD)

lemma armScan_found :
    ∀ (l : List StereoFrame) (ring : PreRollRing) (idx : ℕ),
      (∃ f ∈ l, peakLevel f > RECORD_PEAK_THRESHOLD) →
      armScan ring idx l
        = (ring.pushAll (l.take (firstCross l)), some (idx + firstCross l))
  | [], _, _, h => by simp at h
  | f :: rest, ring, idx, h => by
      by_cases hf : peakLevel f > RECORD_PEAK_THRESHOLD
      · simp only [armScan, if_pos hf]
        have hcross : firstCross (f :: rest) = 0 := by
          simp [firstCross, List.findIdx_cons, hf]
        rw [hcross]
        simp [PreRollRing.pushAll]
      · have hrest : ∃ g ∈ rest, peakLevel g > RECORD_PEAK_THRESHOLD := by
          obtain ⟨g, hg, hgt⟩ := h
          rcases List.mem_cons.mp hg with rfl | hgr
          · exact absurd hgt hf
          · exact ⟨g, hgr, hgt⟩
        have hcross : firstCross (f :: rest) = firstCross rest + 1 := by
          simp [firstCross, List.findIdx_cons, hf]
        simp only [armScan, if_neg hf]
        rw [armScan_found rest (ring.push f) (idx + 1) hrest, hcross]
        have h1 : (f :: rest).take (firstCross rest + 1)
            = f :: rest.take (firstCross rest) := by
          simp [List.take_succ_cons]
        have h2 : PreRollRing.pushAll ring (f :: rest.take (firstCross rest))
            = PreRollRing.pushAll (ring.push f) (rest.take (firstCross rest)) := by
          simp [PreRollRing.pushAll]
        rw [h1, h2, show idx + (firstCross rest + 1) = idx + 1 + firstCross rest
          by omega]

/-- C1: if the recording state is Armed and the drained batch contains a
frame whose peak level strictly exceeds the 0.02 threshold, the state
becomes Capturing; the ring received exactly the frames preceding the first
crossing, and the Capturing buffer is the ring's chronological drain
followed by every frame of the batch from the crossing index on. While
Capturing, every drained batch is appended verbatim. -/
theorem c1_armed_to_capturing (sample_id : ℕ) (ring : PreRollRing)
    (chunks : List (List StereoFrame))
    (h : ∃ f ∈ chunks.flatten, peakLevel f > RECORD_PEAK_THRESHOLD) :
    (drainInput (.Armed sample_id ring) chunks
        = .Capturing sample_id
            ((ring.pushAll (chunks.flatten.take (firstCross chunks.flatten))).drain_ordered
              ++ chunks.flatten.drop (firstCross chunks.flatten))) ∧
      ∀ (sid : ℕ) (buffer : List StereoFrame)
        (chunks2 : List (List StereoFrame)),
        drainInput (.Capturing sid buffer) chunks2
          = .Capturing sid (buffer ++ chunks2.flatten) := by
  constructor
  · have hne : chunks.isEmpty = false := by
      obtain ⟨f, hf, _⟩ := h
      rcases chunks with _ | ⟨c, cs⟩
      · simp at hf
      · rfl
    unfold drainInput
    rw [hne]
    simp only [Bool.false_eq_true, if_false]
    rw [armScan_found chunks.flatten ring 0 h]
    simp
  · intro sid buffer chunks2
    unfold drainInput
    rcases hc : chunks2.isEmpty with _ | _
    · simp
    · rw [List.isEmpty_iff] at hc
      subst hc
      simp

/-- C1 witness: ring of capacity 2, one silent chunk then a chunk whose
second frame crosses the threshold. -/
theorem c1_armed_to_capturing_witness :
    (drainInput
        (.Armed 4 (PreRollRing.new 2))
        [[⟨0, 0⟩, ⟨0, 0⟩, ⟨0, 0⟩], [⟨0, 0⟩, ⟨1, 0⟩]]
      = .Capturing 4
          (((PreRollRing.new 2).pushAll
              (([[⟨0, 0⟩, ⟨0, 0⟩, ⟨0, 0⟩], [⟨0, 0⟩, ⟨1, 0⟩]] :
                List (List StereoFrame)).flatten.take
                (firstCross ([[⟨0, 0⟩, ⟨0, 0⟩, ⟨0, 0⟩],
                  [⟨0, 0⟩, ⟨1, 0⟩]] : List (List StereoFrame)).flatten))).drain_ordered
            ++ ([[⟨0, 0⟩, ⟨0, 0⟩, ⟨0, 0⟩], [⟨0, 0⟩, ⟨1, 0⟩]] :
                List (List StereoFrame)).flatten.drop
                (firstCross ([[⟨0, 0⟩, ⟨0, 0⟩, ⟨0, 0⟩],
                  [⟨0, 0⟩, ⟨1, 0⟩]] : List (List StereoFrame)).flatten))) ∧
      ∀ (sid : ℕ) (buffer : List StereoFrame)
        (chunks2 : List (List StereoFrame)),
        drainInput (.Capturing sid buffer) chunks2
          = .Capturing sid (buffer ++ chunks2.flatten) :=
  c1_armed_to_capturing 4 (PreRollRing.new 2)
    [[⟨0, 0⟩, ⟨0, 0⟩, ⟨0, 0⟩], [⟨0, 0⟩, ⟨1, 0⟩]]
    ⟨⟨1, 0⟩, by simp, by norm_num [peakLevel, RECORD_PEAK_THRESHOLD]⟩

/-! ## Sample buffers (`sample_buffer.rs`) -/

/-- Immutable PCM store (`SampleBuffer`): owns the audio data array. -/
structure SampleBuffer where
  data : List StereoFrame
deriving DecidableEq, Repr

/-- Modelled from the spec: `SampleBuffer::from_frames` is called by
`engine.rs` but its body is not among the sources; per the spec's data
model a `SampleBuffer` simply "owns a sequence of Frame", so the
constructor wraps the frames. -/
def SampleBuffer.from_frames (frames : List StereoFrame) : SampleBuffer :=
  ⟨frames⟩

/-! ## Voices (`voice.rs`) -/

/-- Per-trigger playback cursor (`Voice`). -/
structure Voice where
  pos : ℚ
  pitch : ℚ
  gain : ℚ
  active : Bool
  reverse : Bool
  trim_start : ℕ
  length : ℕ
  stutter_period : Option ℕ
  frames_rendered : ℕ
deriving DecidableEq, Repr

/-- `Voice::new`: reverse voices start at `(length - 1) as f32`. -/
def Voice.new (trim_start length : ℕ) (pitch gain : ℚ) (reverse : Bool)
    (stutter_period : Option ℕ) : Voice :=
  { pos := if reverse = true ∧ length > 0 then ((length - 1 : ℕ) : ℚ) else 0,
    pitch := pitch, gain := gain, active := true, reverse := reverse,
    trim_start := trim_start, length := length,
    stutter_period := stutter_period, frames_rendered := 0 }

/-- `Voice::set_pos`: clamp into `[0, length - 1]` when length is positive. -/
def Voice.set_pos (v : Voice) (pos : ℚ) : Voice :=
  if v.length > 0 then
    { v with pos := rustClamp pos 0 ((v.length : ℚ) - 1) }
  else v

/-- The forward stutter wrap `while pos >= p { pos -= p }`, in closed form:
when `p > 0` and `pos ≥ p` the loop leaves `pos - p*⌊pos/p⌋`; otherwise it
does not run. -/
def wrapDown (pos p : ℚ) : ℚ :=
  if 0 < p ∧ p ≤ pos then pos - p * ⌊pos / p⌋ else pos

/-- The reverse stutter wrap `while pos < 0 { pos += p }`, in closed form:
when `p > 0` and `pos < 0` the loop leaves `pos + p*⌈-pos/p⌉`. -/
def wrapUp (pos p : ℚ) : ℚ :=
  if 0 < p ∧ pos < 0 then pos + p * ⌈(-pos) / p⌉ else pos

/-- The per-output-frame loop of `Voice::render_into`, after the entry
checks. A `break` leaves the remaining output frames untouched, so each
early-exit case returns the rest of the list unchanged. Indexing `data[idx]`
is modelled with `getD`; the loop established `idx < data.length` so the
default is never read (see `renderLoop` uses below); `data.get(idx+1)`
falls back to `s0` exactly as in the source. -/
def renderLoop (data : List StereoFrame) :
    Voice → List StereoFrame → Voice × List StereoFrame
  | v, [] => (v, [])
  | v, frame :: rest =>
    if v.active = false then (v, frame :: rest)
    else if v.frames_rendered ≥ v.length then
      ({ v with active := false }, frame :: rest)
    else if v.stutter_period = none ∧ v.reverse = true ∧ v.pos < 0 then
      ({ v with active := false }, frame :: rest)
    else if v.stutter_period = none ∧ v.reverse = false
        ∧ v.pos ≥ (v.length : ℚ) then
      ({ v with active := false }, frame :: rest)
    else
      let read_pos := rustClamp v.pos 0 ((v.length : ℚ) - 1)
      let i := ⌊read_pos⌋.toNat
      if i ≥ v.length then ({ v with active := false }, frame :: rest)
      else
        let frac := read_pos - (i : ℚ)
        let idx := v.trim_start + i
        let s0 := data.getD idx default
        let s1 := (data.get? (idx + 1)).getD s0
        let sample : StereoFrame :=
          ⟨lerp s0.left s1.left frac, lerp s0.right s1.right frac⟩
        let pos_dist := if v.reverse = true then v.pos
          else max ((v.length : ℚ) - v.pos) 0
        let pos_fade := min (pos_dist / 256) 1
        let life_dist := ((v.length - v.frames_rendered : ℕ) : ℚ)
        let life_fade := min (life_dist / 256) 1
        let fade := min pos_fade life_fade
        let g := v.gain * fade
        let frame' : StereoFrame :=
          ⟨frame.left + sample.left * g, frame.right + sample.right * g⟩
        let pos1 := if v.reverse = true then v.pos - v.pitch
          else v.pos + v.pitch
        let pos2 :=
          match v.stutter_period with
          | some period =>
              let pw := min ((period : ℕ) : ℚ) ((v.length : ℚ))
              if 0 < pw then
                (if v.reverse = true then wrapUp pos1 pw else wrapDown pos1 pw)
              else pos1
          | none => pos1
        let v' := { v with pos := pos2,
                           frames_rendered := v.frames_rendered + 1 }
        let next := renderLoop data v' rest
        (next.1, frame' :: next.2)

/-- `Voice::render_into`: entry checks (inactive, zero available frames,
length clamp to the available window) then the per-frame loop. -/
def Voice.render_into (v : Voice) (buffer : SampleBuffer)
    (out : List StereoFrame) : Voice × List StereoFrame :=
  if v.active = false then (v, out)
  else
    let available := buffer.data.length - v.trim_start
    if available = 0 then ({ v with active := false }, out)
    else
      let v2 := { v with length := min v.length available }
      if v2.length = 0 then ({ v2 with active := false }, out)
      else renderLoop buffer.data v2 out

/-- C7: whenever `trim_start` is at least the buffer length (zero available
frames) — including the empty buffer — a freshly triggered voice with any
trim/stutter/pitch/reverse parameters is deactivated by its first
`render_into` call and the output is returned unchanged (no nonzero value
added); the early return happens before any buffer indexing, so no panic
path is reachable. -/
theorem c7_zero_available_deactivates (trim_start len : ℕ) (pitch gain : ℚ)
    (reverse : Bool) (stutter_period : Option ℕ) (buffer : SampleBuffer)
    (out : List StereoFrame) (h : buffer.data.length ≤ trim_start) :
    Voice.render_into
        (Voice.new trim_start len pitch gain reverse stutter_period) buffer out
      = ({ Voice.new trim_start len pitch gain reverse stutter_period with
            active := false }, out) := by
  unfold Voice.render_into
  rw [if_neg (by simp [Voice.new])]
  have havail : buffer.data.length - (Voice.new trim_start len pitch gain
      reverse stutter_period).trim_start = 0 := by
    simp only [Voice.new]
    omega
  rw [havail]
  rfl

/-- C7 witness: empty buffer, stutter and reverse set, trim past the end. -/
theorem c7_zero_available_deactivates_witness :
    Voice.render_into (Voice.new 5 3 (1/2) 1 true (some 2))
        (SampleBuffer.from_frames [⟨1, 1⟩, ⟨2, 2⟩]) [⟨0, 0⟩, ⟨0, 0⟩]
      = ({ Voice.new 5 3 (1/2) 1 true (some 2) with active := false },
          [⟨0, 0⟩, ⟨0, 0⟩]) :=
  c7_zero_available_deactivates 5 3 (1/2) 1 true (some 2)
    (SampleBuffer.from_frames [⟨1, 1⟩, ⟨2, 2⟩]) [⟨0, 0⟩, ⟨0, 0⟩]
    (by simp [SampleBuffer.from_frames])

/-- Voice state after `n` loop iterations of a forward, non-stutter,
full-buffer voice with pitch `p` and gain 1 (trim 0, window `L`). -/
def c2state (L : ℕ) (p : ℚ) (n : ℕ) : Voice :=
  { pos := (n : ℚ) * p, pitch := p, gain := 1, active := true,
    reverse := false, trim_start := 0, length := L,
    stutter_period := none, frames_rendered := n }

lemma renderLoop_cons_deact_fr (data : List StereoFrame) (v : Voice)
    (f : StereoFrame) (rest : List StereoFrame)
    (hactive : v.active = true) (hfr : v.length ≤ v.frames_rendered) :
    renderLoop data v (f :: rest) = ({ v with active := false }, f :: rest) := by
  simp only [renderLoop]
  rw [if_neg (by simp [hactive]), if_pos hfr]

lemma renderLoop_cons_deact_pos (data : List StereoFrame) (v : Voice)
    (f : StereoFrame) (rest : List StereoFrame)
    (hactive : v.active = true) (hstut : v.stutter_period = none)
    (hrev : v.reverse = false) (hfr : v.frames_rendered < v.length)
    (hpos : (v.length : ℚ) ≤ v.pos) :
    renderLoop data v (f :: rest) = ({ v with active := false }, f :: rest) := by
  simp only [renderLoop]
  rw [if_neg (by simp [hactive]), if_neg (by omega),
    if_neg (by simp [hrev]), if_pos ⟨hstut, hrev, hpos⟩]

lemma renderLoop_cons_step (data : List StereoFrame) (v : Voice)
    (f : StereoFrame) (rest : List StereoFrame)
    (hactive : v.active = true) (hstut : v.stutter_period = none)
    (hrev : v.reverse = false) (hfr : v.frames_rendered < v.length)
    (hpos : v.pos < (v.length : ℚ))
    (hi : ⌊rustClamp v.pos 0 ((v.length : ℚ) - 1)⌋.toNat < v.length) :
    (renderLoop data v (f :: rest)).1
      = (renderLoop data
          { v with pos := v.pos + v.pitch,
                   frames_rendered := v.frames_rendered + 1 } rest).1 := by
  simp only [renderLoop]
  rw [if_neg (by simp [hactive]), if_neg (by omega),
    if_neg (by simp [hrev]),
    if_neg (by rintro ⟨-, -, h3⟩; exact absurd h3 (not_le.mpr hpos))]
  simp only [hstut, hrev]
  rw [if_neg (not_le.mpr hi)]
  simp [hactive, hstut, hrev]

lemma renderLoop_count (data : List StereoFrame) (p : ℚ) (hp : 0 < p)
    (L T : ℕ) (hL1 : 1 ≤ L) (hT : T = min L ⌈(L : ℚ) / p⌉.toNat) :
    ∀ (out : List StereoFrame) (n : ℕ), n ≤ T →
      (renderLoop data (c2state L p n) out).1.frames_rendered
          = min (n + out.length) T ∧
        (renderLoop data (c2state L p n) out).1.active
          = decide (n + out.length ≤ T) := by
  have hLQ : (0 : ℚ) < (L : ℚ) := by exact_mod_cast hL1
  have hceil_pos : 0 < ⌈(L : ℚ) / p⌉ :=
    Int.ceil_pos.mpr (div_pos hLQ hp)
  have hTle : T ≤ L := by omega
  intro out
  induction out with
  | nil =>
      intro n hn
      refine ⟨?_, ?_⟩
      · simp only [renderLoop, c2state, List.length_nil]
        omega
      · simp only [renderLoop, c2state]
        simp [hn]
  | cons f rest ih =>
      intro n hn
      rcases lt_or_eq_of_le hn with hlt | heq
      · -- n < T: the loop renders one frame and recurses
        have hposq : ((n : ℚ)) * p < (L : ℚ) := by
          have h1 : (n : ℤ) < ⌈(L : ℚ) / p⌉ := by omega
          have h2 : ((n : ℤ) : ℚ) < (L : ℚ) / p := Int.lt_ceil.mp h1
          have h3 : (n : ℚ) < (L : ℚ) / p := by exact_mod_cast h2
          calc (n : ℚ) * p < ((L : ℚ) / p) * p :=
                mul_lt_mul_of_pos_right h3 hp
            _ = (L : ℚ) := div_mul_cancel₀ _ (ne_of_gt hp)
        have hflr : ⌊rustClamp ((n : ℚ) * p) 0 ((L : ℚ) - 1)⌋.toNat < L := by
          have hge1 : (1 : ℚ) ≤ (L : ℚ) := by exact_mod_cast hL1
          have hle : (0 : ℚ) ≤ (L : ℚ) - 1 := by linarith
          have hcl := rustClamp_mem ((n : ℚ) * p) 0 ((L : ℚ) - 1) hle
          have hfl1 : ⌊rustClamp ((n : ℚ) * p) 0 ((L : ℚ) - 1)⌋
              ≤ ⌊(L : ℚ) - 1⌋ := Int.floor_le_floor hcl.2
          have hfl2 : ⌊(L : ℚ) - 1⌋ = (L : ℤ) - 1 := by
            rw [show ((L : ℚ) - 1) = (((L : ℤ) - 1 : ℤ) : ℚ) by push_cast; ring,
              Int.floor_intCast]
          omega
        have hstep := renderLoop_cons_step data (c2state L p n) f rest
          rfl rfl rfl (by simp only [c2state]; omega)
          (by simpa only [c2state] using hposq)
          (by simpa only [c2state] using hflr)
        have hv' : ({ c2state L p n with
              pos := (c2state L p n).pos + (c2state L p n).pitch,
              frames_rendered := (c2state L p n).frames_rendered + 1 })
            = c2state L p (n + 1) := by
          have hcast : ((n : ℚ)) * p + p = (((n + 1 : ℕ)) : ℚ) * p := by
            push_cast
            ring
          simp [c2state, hcast]
        rw [hstep, hv']
        obtain ⟨ih1, ih2⟩ := ih (n + 1) (by omega)
        refine ⟨?_, ?_⟩
        · rw [ih1, List.length_cons]
          omega
        · rw [ih2, List.length_cons]
          exact decide_eq_decide.mpr (by omega)
      · -- n = T: a termination check fires on this iteration
        subst heq
        have hdeact : renderLoop data (c2state L p n) (f :: rest)
            = ({ c2state L p n with active := false }, f :: rest) := by
          rcases Nat.lt_or_ge ⌈(L : ℚ) / p⌉.toNat L with hTlt | hTge
          · -- n = ⌈L/p⌉.toNat < L: the position check fires
            have hTeq : n = ⌈(L : ℚ) / p⌉.toNat := by omega
            have hTQ : ((n : ℚ)) = ((⌈(L : ℚ) / p⌉ : ℤ) : ℚ) := by
              rw [hTeq]
              exact_mod_cast congrArg (fun z : ℤ => (z : ℚ))
                (Int.toNat_of_nonneg (le_of_lt hceil_pos))
            have hposge : (L : ℚ) ≤ ((n : ℚ)) * p := by
              rw [hTQ]
              calc (L : ℚ) = ((L : ℚ) / p) * p :=
                    (div_mul_cancel₀ _ (ne_of_gt hp)).symm
                _ ≤ ((⌈(L : ℚ) / p⌉ : ℤ) : ℚ) * p :=
                    mul_le_mul_of_nonneg_right (Int.le_ceil _) (le_of_lt hp)
            exact renderLoop_cons_deact_pos data (c2state L p n) f rest
              rfl rfl rfl (by simp only [c2state]; omega)
              (by simpa only [c2state] using hposge)
          · -- n = L: the frames-rendered check fires
            exact renderLoop_cons_deact_fr data (c2state L p n) f rest
              rfl (by simp only [c2state]; omega)
        rw [hdeact]
        refine ⟨?_, ?_⟩
        · simp only [c2state, List.length_cons]
          omega
        · simp only [c2state, List.length_cons]
          have : ¬ (n + (rest.length + 1) ≤ n) := by omega
          simp [this]

/-- C2 (amended): a full-length forward non-stutter voice with gain 1
renders exactly `min(length, ceil(length/pitch))` output frames before
deactivating. For pitch 1 and 2 this equals `ceil(length/pitch)` (so the
claim's count is exact there), but for pitch 0.5 the `frames_rendered`
lifetime cap stops the voice after `length` frames, not
`ceil(length/0.5) = 2*length`. -/
theorem c2_pitch_total_frames (data out : List StereoFrame) (p : ℚ) (L : ℕ)
    (hdata : data.length = L) (hL2 : 2 ≤ L)
    (hp : p = 1/2 ∨ p = 1 ∨ p = 2)
    (hout : L + 1 ≤ out.length) :
    ((Voice.new 0 L p 1 false none).render_into
        (SampleBuffer.from_frames data) out).1.frames_rendered
        = min L ⌈(L : ℚ) / p⌉.toNat ∧
      ((Voice.new 0 L p 1 false none).render_into
        (SampleBuffer.from_frames data) out).1.active = false ∧
      ((p = 1 ∨ p = 2) → min L ⌈(L : ℚ) / p⌉.toNat = ⌈(L : ℚ) / p⌉.toNat) ∧
      (p = 1/2 → min L ⌈(L : ℚ) / p⌉.toNat = L ∧ ⌈(L : ℚ) / p⌉.toNat = 2 * L) := by
  have hp0 : 0 < p := by rcases hp with h | h | h <;> rw [h] <;> norm_num
  have hrender : (Voice.new 0 L p 1 false none).render_into
        (SampleBuffer.from_frames data) out
      = renderLoop data (c2state L p 0) out := by
    simp [Voice.render_into, Voice.new, SampleBuffer.from_frames, c2state,
      hdata, show ¬ L = 0 by omega]
  obtain ⟨h1, h2⟩ := renderLoop_count data p hp0 L
    (min L ⌈(L : ℚ) / p⌉.toNat) (by omega) rfl out 0 (by omega)
  rw [hrender]
  refine ⟨?_, ?_, ?_, ?_⟩
  · rw [h1]
    omega
  · rw [h2]
    simp only [decide_eq_false_iff_not]
    omega
  · rintro (h | h) <;> subst h
    · rw [div_one, Int.ceil_natCast]
      omega
    · have hc : ⌈((L : ℚ)) / 2⌉ ≤ (L : ℤ) := by
        apply Int.ceil_le.mpr
        push_cast
        have h0 : (0 : ℚ) ≤ (L : ℚ) := by positivity
        linarith
      omega
  · intro h
    subst h
    have h1 : ((L : ℚ)) / (1/2) = ((2 * L : ℕ) : ℚ) := by push_cast; ring
    rw [h1, Int.ceil_natCast]
    constructor <;> omega

/-- C2 witness: length 2 at pitch 1 renders exactly 2 frames. -/
theorem c2_pitch_total_frames_witness :
    ((Voice.new 0 2 1 1 false none).render_into
        (SampleBuffer.from_frames [⟨0, 0⟩, ⟨0, 0⟩])
        [⟨0, 0⟩, ⟨0, 0⟩, ⟨0, 0⟩]).1.frames_rendered
        = min 2 ⌈((2 : ℕ) : ℚ) / 1⌉.toNat ∧
      ((Voice.new 0 2 1 1 false none).render_into
        (SampleBuffer.from_frames [⟨0, 0⟩, ⟨0, 0⟩])
        [⟨0, 0⟩, ⟨0, 0⟩, ⟨0, 0⟩]).1.active = false ∧
      (((1 : ℚ) = 1 ∨ (1 : ℚ) = 2) →
        min 2 ⌈((2 : ℕ) : ℚ) / 1⌉.toNat = ⌈((2 : ℕ) : ℚ) / 1⌉.toNat) ∧
      ((1 : ℚ) = 1/2 →
        min 2 ⌈((2 : ℕ) : ℚ) / 1⌉.toNat = 2 ∧ ⌈((2 : ℕ) : ℚ) / 1⌉.toNat = 2 * 2) :=
  c2_pitch_total_frames [⟨0, 0⟩, ⟨0, 0⟩] [⟨0, 0⟩, ⟨0, 0⟩, ⟨0, 0⟩] 1 2
    (by simp) (by norm_num) (Or.inr (Or.inl rfl)) (by simp)

/-- C2 (counterexample): a full-length voice of length 2 at pitch 0.5
renders 2 frames before deactivating, but the claim predicts
`ceil(2/0.5) = 4` within ±1, i.e. at least 3. -/
theorem c2_pitch_total_frames_counterexample :
    ((Voice.new 0 2 (1/2) 1 false none).render_into
        (SampleBuffer.from_frames [⟨0, 0⟩, ⟨0, 0⟩])
        [⟨0, 0⟩, ⟨0, 0⟩, ⟨0, 0⟩]).1.frames_rendered = 2 ∧
      ((Voice.new 0 2 (1/2) 1 false none).render_into
        (SampleBuffer.from_frames [⟨0, 0⟩, ⟨0, 0⟩])
        [⟨0, 0⟩, ⟨0, 0⟩, ⟨0, 0⟩]).1.active = false ∧
      ⌈((2 : ℕ) : ℚ) / (1/2)⌉.toNat = 4 ∧
      ¬ (4 - 1 ≤ 2 ∧ 2 ≤ 4 + 1) := by
  refine ⟨?_, ?_, ?_, by omega⟩
  · norm_num [Voice.render_into, Voice.new, SampleBuffer.from_frames,
      renderLoop, rustClamp, lerp]
  · norm_num [Voice.render_into, Voice.new, SampleBuffer.from_frames,
      renderLoop, rustClamp, lerp]
  · norm_num
    rfl

/-! ## The engine command protocol (`engine.rs`, `audio_api.rs`) -/

/-- `TriggerParams` (`audio_api.rs`). -/
structure TriggerParams where
  sample_id : ℕ
  trim_start : ℕ
  length : ℕ
  gain : ℚ
  pitch : ℚ
  effect_chain : List EffectSpec
  reverse : Bool
  stutter_period_samples : Option ℕ
deriving DecidableEq, Repr

/-- `AudioCommand` (`audio_api.rs`). -/
inductive AudioCommand where
  | RegisterSample (id : ℕ) (buffer : SampleBuffer)
  | Trigger (params : TriggerParams)
  | StartRecording (sample_id : ℕ)
  | StopRecording
  | SetPlaybackPosition (sample_id : ℕ) (position : ℚ)
  | StopAllVoices
deriving DecidableEq, Repr

/-- `ActiveVoice`: a voice, the id of the sample it reads, and its owned
effect chain instantiated at trigger time. -/
structure ActiveVoice where
  voice : Voice
  sample_id : ℕ
  effect_chain : List Effect
deriving DecidableEq, Repr

instance : Inhabited ActiveVoice :=
  ⟨⟨Voice.new 0 0 0 0 false none, 0, []⟩⟩

/-- `HashMap::contains_key` over the registry, modelled as an association
list. -/
def samplesContains (m : List (ℕ × SampleBuffer)) (k : ℕ) : Bool :=
  m.any fun kv => kv.1 == k

/-- `HashMap::insert`: upsert (replace the value under an existing key,
else append). -/
def samplesInsert (m : List (ℕ × SampleBuffer)) (k : ℕ) (v : SampleBuffer) :
    List (ℕ × SampleBuffer) :=
  if samplesContains m k then
    m.map fun kv => if kv.1 = k then (k, v) else kv
  else m ++ [(k, v)]

/-- `CompletedRecording`. -/
structure CompletedRecording where
  sample_id : ℕ
  buffer : SampleBuffer
deriving DecidableEq, Repr

/-- The engine state mutated by the render callback. `completed_tx` models
whether a completion channel sender is attached (`Option<Sender>`); the
input queue is modelled by passing drained chunks to `drain_input`
directly, and `temp_buf` is a render-pass scratch not touched by command
handling. -/
structure Engine where
  samples : List (ℕ × SampleBuffer)
  active : List ActiveVoice
  recording : RecordingState
  completed_tx : Bool
deriving DecidableEq, Repr

/-- Does this active voice match the id and is it still active?
(the predicate of `SetPlaybackPosition`'s `rev().find(...)`). -/
def matchesVoice (sample_id : ℕ) (a : ActiveVoice) : Bool :=
  a.sample_id == sample_id && a.voice.active

/-- `self.active.iter_mut().rev().find(matching).map(set_pos)`: update the
last (most recently triggered) matching active voice, if any. -/
def setPosLast (l : List ActiveVoice) (sample_id : ℕ) (position : ℚ) :
    List ActiveVoice :=
  match l with
  | [] => []
  | a :: rest =>
      if rest.any (matchesVoice sample_id) then
        a :: setPosLast rest sample_id position
      else if matchesVoice sample_id a then
        { a with voice := a.voice.set_pos position } :: rest
      else a :: rest

/-- `Engine::handle_cmd`. The second component is the list of messages
offered to the completion channel (`try_send`) while handling the
command. -/
def Engine.handle_cmd (e : Engine) (cmd : AudioCommand) :
    Engine × List CompletedRecording :=
  match cmd with
  | .RegisterSample id buffer =>
      ({ e with samples := samplesInsert e.samples id buffer }, [])
  | .Trigger params =>
      if samplesContains e.samples params.sample_id then
        let effect_chain := params.effect_chain.map EffectSpec.to_effect
        let voice := Voice.new params.trim_start params.length params.pitch
          params.gain params.reverse params.stutter_period_samples
        ({ e with active := e.active
            ++ [⟨voice, params.sample_id, effect_chain⟩] }, [])
      else (e, [])
  | .SetPlaybackPosition sample_id position =>
      ({ e with active := setPosLast e.active sample_id position }, [])
  | .StopAllVoices =>
      ({ e with active := e.active.map fun a =>
          { a with voice := { a.voice with active := false } } }, [])
  | .StartRecording sample_id =>
      ({ e with recording :=
          RecordingState.Armed sample_id (PreRollRing.new PRE_ROLL_FRAMES) }, [])
  | .StopRecording =>
      match e.recording with
      | .Capturing sample_id buffer =>
          let buf := if buffer.isEmpty then
              SampleBuffer.from_frames [StereoFrame.mk 0 0]
            else SampleBuffer.from_frames buffer
          ({ e with recording := RecordingState.Idle,
                    samples := samplesInsert e.samples sample_id buf },
            if e.completed_tx then [⟨sample_id, buf⟩] else [])
      | .Armed sample_id _ =>
          ({ e with recording := RecordingState.Idle,
                    samples := samplesInsert e.samples sample_id
                      (SampleBuffer.from_frames [StereoFrame.mk 0 0]) }, [])
      | .Idle => ({ e with recording := RecordingState.Idle }, [])

/-- `Engine::drain_input` feeds the drained batch to the recording state
machine; nothing else in the engine changes. -/
def Engine.drain_input (e : Engine) (chunks : List (List StereoFrame)) :
    Engine :=
  { e with recording := drainInput e.recording chunks }

/-- C9: `StartRecording` from any state re-arms: the state becomes
`Armed{sample_id}` with a fresh empty pre-roll ring of capacity 6615; the
registry and voice list are untouched and nothing is published — in
particular an in-progress capture's buffer is discarded without being
registered or completed. -/
theorem c9_start_recording_rearms (e : Engine) (sample_id : ℕ) :
    e.handle_cmd (.StartRecording sample_id)
        = ({ e with recording :=
              RecordingState.Armed sample_id (PreRollRing.new 6615) }, []) ∧
      (e.handle_cmd (.StartRecording sample_id)).1.samples = e.samples ∧
      (e.handle_cmd (.StartRecording sample_id)).1.active = e.active ∧
      (PreRollRing.new 6615).drain_ordered = [] ∧
      (PreRollRing.new 6615).data.length = 6615 := by
  refine ⟨rfl, rfl, rfl, ?_, ?_⟩
  · unfold PreRollRing.drain_ordered
    exact if_pos (Or.inl rfl)
  · show (List.replicate 6615 (default : StereoFrame)).length = 6615
    exact List.length_replicate 6615 default

/-- C5: `StopRecording` always leaves the state Idle. From Idle it is a
no-op; from Armed it registers a one-frame silent buffer under the target
id and publishes nothing; from Capturing it registers the accumulated
buffer (one-frame silence if empty) and offers a `CompletedRecording` with
the same id and an equal buffer to the completion channel. -/
theorem c5_stop_recording_finalizes (e : Engine) (htx : e.completed_tx = true) :
    (e.handle_cmd .StopRecording).1.recording = RecordingState.Idle ∧
      (e.recording = RecordingState.Idle →
        e.handle_cmd .StopRecording = (e, [])) ∧
      (∀ sid r, e.recording = RecordingState.Armed sid r →
        e.handle_cmd .StopRecording
          = ({ e with recording := RecordingState.Idle,
                      samples := samplesInsert e.samples sid
                        (SampleBuffer.from_frames [⟨0, 0⟩]) }, [])) ∧
      (∀ sid buffer, e.recording = RecordingState.Capturing sid buffer →
        e.handle_cmd .StopRecording
          = ({ e with recording := RecordingState.Idle,
                      samples := samplesInsert e.samples sid
                        (if buffer.isEmpty then
                            SampleBuffer.from_frames [⟨0, 0⟩]
                          else SampleBuffer.from_frames buffer) },
              [⟨sid, if buffer.isEmpty then SampleBuffer.from_frames [⟨0, 0⟩]
                     else SampleBuffer.from_frames buffer⟩])) := by
  rcases e with ⟨samples, active, recording, tx⟩
  simp only at htx
  subst htx
  cases recording with
  | Idle =>
      refine ⟨rfl, fun _ => rfl, ?_, ?_⟩
      · intro sid r h
        simp at h
      · intro sid buffer h
        simp at h
  | Armed sid0 r0 =>
      refine ⟨rfl, ?_, ?_, ?_⟩
      · intro h
        simp at h
      · intro sid r h
        cases h
        rfl
      · intro sid buffer h
        simp at h
  | Capturing sid0 buf0 =>
      refine ⟨rfl, ?_, ?_, ?_⟩
      · intro h
        simp at h
      · intro sid r h
        simp at h
      · intro sid buffer h
        cases h
        simp [Engine.handle_cmd]

/-- C5 witness: a Capturing engine with a one-frame buffer and an attached
completion channel. -/
theorem c5_stop_recording_finalizes_witness :
    (Engine.handle_cmd
        ⟨[], [], RecordingState.Capturing 7 [⟨1, 2⟩], true⟩
        .StopRecording).1.recording = RecordingState.Idle ∧
      Engine.handle_cmd
          ⟨[], [], RecordingState.Capturing 7 [⟨1, 2⟩], true⟩
          .StopRecording
        = (⟨samplesInsert [] 7 (SampleBuffer.from_frames [⟨1, 2⟩]), [],
            RecordingState.Idle, true⟩,
          [⟨7, SampleBuffer.from_frames [⟨1, 2⟩]⟩]) := by
  have h := c5_stop_recording_finalizes
    ⟨[], [], RecordingState.Capturing 7 [⟨1, 2⟩], true⟩ rfl
  refine ⟨h.1, ?_⟩
  have h2 := h.2.2.2 7 [⟨1, 2⟩] rfl
  simpa using h2

lemma setPosLast_no_match (sample_id : ℕ) (position : ℚ) :
    ∀ l : List ActiveVoice, l.any (matchesVoice sample_id) = false →
      setPosLast l sample_id position = l
  | [], _ => rfl
  | a :: rest, h => by
      simp only [List.any_cons, Bool.or_eq_false_iff] at h
      unfold setPosLast
      rw [if_neg (by simp [h.2]), if_neg (by simp [h.1])]

lemma setPosLast_match (sample_id : ℕ) (position : ℚ) :
    ∀ l : List ActiveVoice, l.any (matchesVoice sample_id) = true →
      ∃ j, ∃ hj : j < l.length,
        matchesVoice sample_id (l.get ⟨j, hj⟩) = true ∧
        (∀ k (hk : k < l.length), j < k →
          matchesVoice sample_id (l.get ⟨k, hk⟩) = false) ∧
        setPosLast l sample_id position
          = l.set j { l.get ⟨j, hj⟩ with
              voice := (l.get ⟨j, hj⟩).voice.set_pos position }
  | [], h => by simp at h
  | a :: rest, h => by
      cases hrest : rest.any (matchesVoice sample_id) with
      | false =>
          have ha : matchesVoice sample_id a = true := by
            rw [List.any_cons, hrest, Bool.or_false] at h
            exact h
          refine ⟨0, by simp, by simpa using ha, ?_, ?_⟩
          · intro k hk hk0
            rcases k with _ | k2
            · omega
            · have hk2 : k2 < rest.length := by simpa using hk
              simp only [List.get_eq_getElem, List.getElem_cons_succ]
              have hall := List.any_eq_false.mp hrest
              have hmem : rest.get ⟨k2, hk2⟩ ∈ rest :=
                List.get_mem rest k2 hk2
              have h5 := hall _ hmem
              simp only [Bool.not_eq_true, List.get_eq_getElem] at h5
              exact h5
          · unfold setPosLast
            rw [if_neg (by simp [hrest]), if_pos ha]
            simp
      | true =>
          obtain ⟨j, hj, hmatch, hafter, heq⟩ :=
            setPosLast_match sample_id position rest hrest
          refine ⟨j + 1, by simpa using Nat.succ_lt_succ hj,
            by simpa using hmatch, ?_, ?_⟩
          · intro k hk hk1
            rcases k with _ | k2
            · omega
            · simp only [List.get_eq_getElem, List.getElem_cons_succ]
              have := hafter k2 (by simpa using hk) (by omega)
              simpa using this
          · unfold setPosLast
            rw [if_pos hrest, heq]
            simp

/-- C8: a Trigger whose sample id is not registered leaves the whole engine
unchanged and spawns no voice; SetPlaybackPosition with no matching active
voice leaves the engine unchanged; with a match it rewrites only the
position of the last (most recently triggered) matching active voice —
every other entry, the registry, and the recording state are untouched,
and nothing is published. -/
theorem c8_unknown_refs_noop (e : Engine) (params : TriggerParams)
    (sample_id : ℕ) (position : ℚ) :
    (samplesContains e.samples params.sample_id = false →
      e.handle_cmd (.Trigger params) = (e, [])) ∧
    (e.active.any (matchesVoice sample_id) = false →
      e.handle_cmd (.SetPlaybackPosition sample_id position) = (e, [])) ∧
    (e.active.any (matchesVoice sample_id) = true →
      ∃ j, ∃ hj : j < e.active.length,
        matchesVoice sample_id (e.active.get ⟨j, hj⟩) = true ∧
        (∀ k (hk : k < e.active.length), j < k →
          matchesVoice sample_id (e.active.get ⟨k, hk⟩) = false) ∧
        e.handle_cmd (.SetPlaybackPosition sample_id position)
          = ({ e with active := e.active.set j { e.active.get ⟨j, hj⟩ with
                  voice := (e.active.get ⟨j, hj⟩).voice.set_pos position } },
              [])) := by
  refine ⟨?_, ?_, ?_⟩
  · intro h
    simp only [Engine.handle_cmd]
    rw [if_neg (by simp [h])]
  · intro h
    simp only [Engine.handle_cmd]
    rw [setPosLast_no_match sample_id position e.active h]
  · intro h
    obtain ⟨j, hj, h1, h2, h3⟩ := setPosLast_match sample_id position e.active h
    exact ⟨j, hj, h1, h2, by simp only [Engine.handle_cmd]; rw [h3]⟩

/-- One-voice engine used to witness C8's matching case. -/
def c8Engine : Engine :=
  ⟨[], [⟨Voice.new 0 4 1 1 false none, 3, []⟩], RecordingState.Idle, false⟩

/-- C8 witness: an unregistered Trigger and an unmatched
SetPlaybackPosition are no-ops on an empty engine; on `c8Engine` a
matching SetPlaybackPosition rewrites exactly one voice. -/
theorem c8_unknown_refs_noop_witness :
    (Engine.handle_cmd ⟨[], [], RecordingState.Idle, false⟩
        (.Trigger ⟨5, 0, 0, 1, 1, [], false, none⟩)
      = (⟨[], [], RecordingState.Idle, false⟩, [])) ∧
    (Engine.handle_cmd ⟨[], [], RecordingState.Idle, false⟩
        (.SetPlaybackPosition 5 (1/2))
      = (⟨[], [], RecordingState.Idle, false⟩, [])) ∧
    (∃ j, ∃ hj : j < c8Engine.active.length,
      matchesVoice 3 (c8Engine.active.get ⟨j, hj⟩) = true ∧
      (∀ k (hk : k < c8Engine.active.length), j < k →
        matchesVoice 3 (c8Engine.active.get ⟨k, hk⟩) = false) ∧
      c8Engine.handle_cmd (.SetPlaybackPosition 3 (1/2))
        = ({ c8Engine with active := c8Engine.active.set j {
                c8Engine.active.get ⟨j, hj⟩ with
                voice := (c8Engine.active.get ⟨j, hj⟩).voice.set_pos (1/2) } },
            [])) :=
  ⟨(c8_unknown_refs_noop ⟨[], [], RecordingState.Idle, false⟩
      ⟨5, 0, 0, 1, 1, [], false, none⟩ 5 (1/2)).1 rfl,
    (c8_unknown_refs_noop ⟨[], [], RecordingState.Idle, false⟩
      ⟨5, 0, 0, 1, 1, [], false, none⟩ 5 (1/2)).2.1 rfl,
    (c8_unknown_refs_noop c8Engine
      ⟨5, 0, 0, 1, 1, [], false, none⟩ 3 (1/2)).2.2 rfl⟩
